import Mathlib

/-
Verification development for the `css_inliner` repository
(`css_inliner.py`).

Embedding conventions:
* Python strings are embedded as `List Char` (abbreviated `Str`), so that
  the string manipulations of the source (`split`, `strip`, `replace`,
  `join`, `rstrip`) become structurally recursive Lean functions that can
  be reasoned about by induction and evaluated by `decide`.
* `str.strip()` is modelled with the whitespace set of `Char.isWhitespace`
  (space, tab, carriage return, newline), and `str.splitlines()` is
  modelled with `'\n'` as the line boundary.
* The external collaborators are parameters of the model: the CSS parser
  (`cssutils`) is a function `Str → Option (List CssRule)` where `none`
  models `xml.dom.SyntaxErr`, and a rule attribute that would raise
  `AttributeError` is an `Option` field that is `none`; DOM selector
  matching (`soup.select`) is a predicate `Str → Element → Bool`.
* A `<style>` tag whose `.string` is `None` in BeautifulSoup is modelled
  as a `none` entry in `Soup.styleTexts`; the `AttributeError` this raises
  in `divide_declarations_from_style_tags` is modelled with `Except`.
-/

abbrev Str := List Char

/-- Converts a Lean string literal to the `List Char` representation. -/
def chars (s : String) : Str := s.toList

/-- Python `str.lstrip()`: drop leading whitespace. -/
def lstripWs (l : Str) : Str := l.dropWhile Char.isWhitespace

/-- Python `str.rstrip()`: drop trailing whitespace. -/
def rstripWs (l : Str) : Str := (l.reverse.dropWhile Char.isWhitespace).reverse

/-- Python `str.strip()`: drop leading and trailing whitespace. -/
def stripWs (l : Str) : Str := rstripWs (lstripWs l)

/-- Python `str.rstrip(";")`: drop all trailing semicolons. -/
def rstripSemi (l : Str) : Str := (l.reverse.dropWhile (fun c => c = ';')).reverse

/-- Python `str.split(c)` for a one-character separator: split on every
occurrence of `c`, keeping empty pieces (so the result is never empty). -/
def splitOnChar (c : Char) : Str → List Str
  | [] => [[]]
  | x :: xs =>
    let r := splitOnChar c xs
    if x = c then [] :: r else (x :: r.headI) :: r.tail

/-- Python `str.splitlines()` restricted to `'\n'` line boundaries: like
splitting on `'\n'` but without a trailing empty piece when the text ends
in a newline, and empty for the empty text. -/
def splitlines (l : Str) : List Str :=
  if l = [] then []
  else if l.getLast? = some '\n' then (splitOnChar '\n' l).dropLast
  else splitOnChar '\n' l

/-- Python `sep.join(items)`. -/
def joinWith (sep : Str) : List Str → Str
  | [] => []
  | [x] => x
  | x :: y :: xs => x ++ sep ++ joinWith sep (y :: xs)

/-- Source `_add_closing_tag`: re-append a closing brace and strip. -/
def add_closing_tag (declaration : Str) : Str :=
  stripWs (declaration ++ ['\x7d'])

/-- Source `format_css_content_for_inline`: strip the whole text, split it
into lines, delete every `';'` from each line and append a single `';'`,
then join the lines with one space. -/
def format_css_content_for_inline (css_text : Str) : Str :=
  let css_content_items : List Str := splitlines (stripWs css_text)
  let formatted_css_items : List Str :=
    css_content_items.map (fun item => item.filter (fun c => c ≠ ';') ++ [';'])
  joinWith [' '] formatted_css_items

/-- Source `divide_declarations_from_style_tags` restricted to one style
block's text: split on `'\x7d'`, re-append a closing brace to every piece,
and drop the pieces whose stripped text is exactly `"\x7d"`. -/
def divide_one_style_text (text : Str) : List Str :=
  ((splitOnChar '\x7d' text).map add_closing_tag).filter
    (fun x => stripWs x ≠ ['\x7d'])

/-- Source `divide_declarations_from_style_tags`, given the `.string` text
of every style tag: per-block fragments, concatenated in input order. -/
def divide_declarations_from_style_tags (texts : List Str) : List Str :=
  (texts.map divide_one_style_text).flatten

/-- One rule object returned by the external CSS parser. A `none` field
models the `AttributeError` raised when the attribute is accessed on a
rule that lacks it (comments, at-rules). -/
structure CssRule where
  selectorText : Option Str
  cssText : Option Str
deriving DecidableEq

/-- Result of `process_css_declarations`: the Declaration Record (an
insertion-ordered association list, modelling the Python `dict`) and the
Failed Fragment List. -/
structure ProcessedDeclarations where
  successful_declaration : List (Str × List Str)
  failed_declaration : List Str
deriving DecidableEq

/-- Python `dict.setdefault(k, []); dict[k].append(v)`: append `v` to the
list at key `k`, keeping the key's original position, or add `(k, [v])`
at the end when the key is new. -/
def dictAppend : List (Str × List Str) → Str → Str → List (Str × List Str)
  | [], k, v => [(k, [v])]
  | kv :: rest, k, v =>
    if kv.1 = k then (kv.1, kv.2 ++ [v]) :: rest
    else kv :: dictAppend rest k v

/-- Processing of one parsed rule object in `process_css_declarations`:
record `(selectorText, formatted cssText)` unless either attribute access
fails, in which case the rule is skipped silently. -/
def ruleStep (m : List (Str × List Str)) (r : CssRule) : List (Str × List Str) :=
  match r.selectorText, r.cssText with
  | some sel, some txt => dictAppend m sel (format_css_content_for_inline txt)
  | _, _ => m

/-- The fragment loop of `process_css_declarations`, with the accumulated
record and failed list made explicit. A `none` parse models
`xml.dom.SyntaxErr`: the fragment goes to the failed list verbatim and the
loop continues. -/
def process_loop (parse : Str → Option (List CssRule)) :
    List (Str × List Str) → List Str → List Str → ProcessedDeclarations
  | m, f, [] => ⟨m, f⟩
  | m, f, d :: rest =>
    match parse d with
    | none => process_loop parse m (f ++ [d]) rest
    | some rules => process_loop parse (rules.foldl ruleStep m) f rest

/-- Source `process_css_declarations`. -/
def process_css_declarations (parse : Str → Option (List CssRule))
    (declarations : List Str) : ProcessedDeclarations :=
  process_loop parse [] [] declarations

/-- The successful (selector, formatted declaration) pairs a rule object
contributes: none when one of the attribute accesses fails. -/
def extractRule (r : CssRule) : Option (Str × Str) :=
  match r.selectorText, r.cssText with
  | some sel, some txt => some (sel, format_css_content_for_inline txt)
  | _, _ => none

/-- Record one (selector, formatted declaration) pair. -/
def pairStep (m : List (Str × List Str)) (p : Str × Str) : List (Str × List Str) :=
  dictAppend m p.1 p.2

/-- The sequence of (selector, formatted declaration) pairs successfully
extracted from a fragment sequence, in encounter order. -/
def parsedPairs (parse : Str → Option (List CssRule)) (decls : List Str) :
    List (Str × Str) :=
  (decls.map (fun d => ((parse d).getD []).filterMap extractRule)).flatten

/-- Adds a key at the end unless it is already present (the key order a
Python `dict` maintains under `setdefault`). -/
def insertKey (acc : List Str) (k : Str) : List Str :=
  if k ∈ acc then acc else acc ++ [k]

/-- The distinct keys of a sequence in first-occurrence order. -/
def firstKeys (ks : List Str) : List Str := ks.foldl insertKey []

/-- Looks a key up in the Declaration Record, returning the empty list for
an absent key. -/
def lookupList : List (Str × List Str) → Str → List Str
  | [], _ => []
  | kv :: rest, k => if kv.1 = k then kv.2 else lookupList rest k

/-- Python `dict` assignment `d[k] = v`: replace the value at an existing
key in place, or add `(k, v)` at the end. -/
def dictAssign {α : Type} [DecidableEq α] {β : Type} :
    List (α × β) → α → β → List (α × β)
  | [], k, v => [(k, v)]
  | kv :: rest, k, v =>
    if kv.1 = k then (kv.1, v) :: rest else kv :: dictAssign rest k v

/-- Python `dict.setdefault(k, v)`: add `(k, v)` at the end when the key
is new, keep the stored value when the key exists. -/
def dictSetdefault {α : Type} [DecidableEq α] {β : Type} :
    List (α × β) → α → β → List (α × β)
  | [], k, v => [(k, v)]
  | kv :: rest, k, v =>
    if kv.1 = k then kv :: rest else kv :: dictSetdefault rest k v

/-- Source `inline_css_declarations`: split each selector key on `','`,
strip each piece, and pair the resulting selector tuple with the
space-joined declaration list (plain `dict` assignment, so a repeated
tuple key would be overwritten). -/
def inline_css_declarations (css_declarations : List (Str × List Str)) :
    List (List Str × Str) :=
  css_declarations.foldl
    (fun result kv =>
      dictAssign result ((splitOnChar ',' kv.1).map stripWs)
        (joinWith [' '] kv.2))
    []

/-- The three shapes of a DOM element's `style` attribute as returned by
`item.get("style")`: absent (`None`), a single string, or a token list. -/
inductive StyleAttr where
  | absent : StyleAttr
  | single (s : Str) : StyleAttr
  | tokens (ts : List Str) : StyleAttr
deriving DecidableEq

/-- Python truthiness test `not previous_style_attr`: true for `None`,
the empty string and the empty list. -/
def styleAttrFalsy : StyleAttr → Bool
  | .absent => true
  | .single s => s = []
  | .tokens ts => ts = []

/-- The merge computation of `apply_selectors_to_elements_as_inline_css`
for one matched element: the falsy check comes first (as in the source),
then the list branch, then the string branch; each joining branch ends by
stripping all trailing semicolons. -/
def new_style_attr (previous_style_attr : StyleAttr) (inline_style : Str) : Str :=
  if styleAttrFalsy previous_style_attr then rstripSemi inline_style
  else
    match previous_style_attr with
    | .tokens ts => rstripSemi (joinWith [';', ' '] (ts ++ [inline_style]))
    | .single s => rstripSemi (joinWith [';', ' '] [s, inline_style])
    | .absent => rstripSemi inline_style

/-- A DOM element: an opaque identity used by the selector-matching
collaborator, and the mutable `style` attribute. -/
structure Element where
  name : Str
  style : StyleAttr
deriving DecidableEq

/-- Source `apply_selectors_to_elements_as_inline_css`: for each plain
selector in order, rewrite the `style` attribute of every element matched
by the external selector engine; the written value is always a single
string. -/
def apply_selectors_to_elements_as_inline_css
    (selects : Str → Element → Bool) (elements : List Element)
    (no_pseudo_selectors : List Str) (inline_style : Str) : List Element :=
  no_pseudo_selectors.foldl
    (fun elems selector =>
      elems.map (fun item =>
        if selects selector item then
          { item with style := .single (new_style_attr item.style inline_style) }
        else item))
    elements

/-- One iteration of the selector loop in `main`: record the pseudo subset
in `pseudo_style_declarations` via `setdefault`, then inline the plain
subset unless it is empty. -/
def resolver_step (selects : Str → Element → Bool)
    (st : List (List Str × Str) × List Element) (entry : List Str × Str) :
    List (List Str × Str) × List Element :=
  let selectors := entry.1
  let inline_style := entry.2
  let pseudo_selectors := selectors.filter (fun s => s.contains ':')
  let pdict := dictSetdefault st.1 pseudo_selectors inline_style
  let no_pseudo_selectors := selectors.filter (fun s => !(s.contains ':'))
  if no_pseudo_selectors = [] then (pdict, st.2)
  else
    (pdict,
     apply_selectors_to_elements_as_inline_css selects st.2
       no_pseudo_selectors inline_style)

/-- Python `logging.CRITICAL` (the numeric level 50). -/
def logging_CRITICAL : Nat := 50

/-- Python `logging.FATAL`, an alias of `logging.CRITICAL` in the
standard library's `logging` module: the same numeric level 50. -/
def logging_FATAL : Nat := 50

/-- The document as the pipeline sees it: the `.string` of every
`<style>` tag in order (`none` when the tag has no text content, as
BeautifulSoup returns for an empty `<style></style>`), whether a `<head>`
exists, and the elements available for inline application. -/
structure Soup where
  styleTexts : List (Option Str)
  hasHead : Bool
  elements : List Element
deriving DecidableEq

/-- Observable outcome of a run: the level the CSS parser's logger was
set to, the final elements, and the content of the residual style block
(`none` when the document has no head and the block is dropped). -/
structure MainOutput where
  logLevel : Nat
  elements : List Element
  residual : Option (List Str)
deriving DecidableEq

/-- Extraction of `tag.string` for every style tag, as performed inside
the list comprehension of `divide_declarations_from_style_tags`: a `none`
string raises `AttributeError` (`None.split`), aborting the whole run. -/
def extract_style_strings : List (Option Str) → Except Unit (List Str)
  | [] => .ok []
  | none :: _ => .error ()
  | some s :: rest => (extract_style_strings rest).map (fun ts => s :: ts)

/-- Source `main`, with the CSS parser and the selector engine as
parameters: set the logger level from the silent flag, split the style
blocks, process the fragments, resolve selectors (accumulating the unused
`pseudo_style_declarations` dictionary and inlining plain selectors), and
append the failed fragments as the residual style block when a head
exists. -/
def main_model (parse : Str → Option (List CssRule))
    (selects : Str → Element → Bool) (soup : Soup) (silent : Bool) :
    Except Unit MainOutput :=
  let level := if silent then logging_CRITICAL else logging_FATAL
  match extract_style_strings soup.styleTexts with
  | .error e => .error e
  | .ok texts =>
    let declarations := divide_declarations_from_style_tags texts
    let processed := process_css_declarations parse declarations
    let inlined := inline_css_declarations processed.successful_declaration
    let st := inlined.foldl (resolver_step selects) ([], soup.elements)
    let residual := if soup.hasHead then some processed.failed_declaration else none
    .ok { logLevel := level, elements := st.2, residual := residual }

/-- Modelled from the claim's words (for comparison with the source's
`format_css_content_for_inline` only): split the raw text into lines,
strip each line, remove every semicolon from it, append exactly one
semicolon, and join the reformatted lines with a single space. -/
def format_css_line_stripping_variant (css_text : Str) : Str :=
  joinWith [' ']
    ((splitlines css_text).map
      (fun item => (stripWs item).filter (fun c => c ≠ ';') ++ [';']))

/-- Models the external CSS parser on the two fragments of the spec's
grouping example. -/
def parse_grouping_example : Str → Option (List CssRule) := fun d =>
  if d = chars "a\x7bcolor:red\x7d" then
    some [{ selectorText := some (chars "a"), cssText := some (chars "color:red") }]
  else if d = chars "a\x7bfont-size:12px\x7d" then
    some [{ selectorText := some (chars "a"),
            cssText := some (chars "font-size:12px") }]
  else none

/-- Models the external CSS parser on the single fragment of the spec's
pseudo-selector example. -/
def parse_pseudo_example : Str → Option (List CssRule) := fun d =>
  if d = chars "a, b:hover\x7bcolor:red\x7d" then
    some [{ selectorText := some (chars "a, b:hover"),
            cssText := some (chars "color:red") }]
  else none

/-- Models the external selector engine: a selector matches exactly the
elements carrying that name. -/
def selects_by_name : Str → Element → Bool := fun sel e => sel = e.name

/-- The pseudo-selector example document: one style block whose rule has
the selector key `a, b:hover`, a head, and one `a` element without a
style attribute. -/
def soup_pseudo_example : Soup :=
  { styleTexts := [some (chars "a, b:hover\x7bcolor:red\x7d")]
    hasHead := true
    elements := [{ name := chars "a", style := .absent }] }

theorem splitOnChar_ne_nil (c : Char) (l : Str) : splitOnChar c l ≠ [] := by
  cases l with
  | nil => simp [splitOnChar]
  | cons x xs => simp only [splitOnChar]; split <;> simp

theorem splitOnChar_no_sep {c : Char} : ∀ {l : Str}, c ∉ l → splitOnChar c l = [l]
  | [], _ => rfl
  | x :: xs, h => by
    have hx : ¬ x = c := fun e => h (e ▸ List.mem_cons_self x xs)
    have ih : splitOnChar c xs = [xs] :=
      splitOnChar_no_sep (fun hm => h (List.mem_cons_of_mem x hm))
    simp [splitOnChar, hx, ih]

theorem splitOnChar_append_sep {c : Char} :
    ∀ {a : Str} (b : Str), c ∉ a →
      splitOnChar c (a ++ c :: b) = a :: splitOnChar c b
  | [], b, _ => by simp [splitOnChar]
  | x :: a', b, h => by
    have hx : ¬ x = c := fun e => h (e ▸ List.mem_cons_self x a')
    have ih : splitOnChar c (a' ++ c :: b) = a' :: splitOnChar c b :=
      splitOnChar_append_sep b (fun hm => h (List.mem_cons_of_mem x hm))
    simp [splitOnChar, hx, ih]

theorem mem_splitOnChar_not_mem {c : Char} :
    ∀ {l : Str} (p : Str), p ∈ splitOnChar c l → c ∉ p
  | [], p, hp => by
    simp [splitOnChar] at hp; subst hp; simp
  | x :: xs, p, hp => by
    by_cases hx : x = c
    · simp only [splitOnChar, if_pos hx] at hp
      rcases List.mem_cons.1 hp with h | h
      · subst h; simp
      · exact mem_splitOnChar_not_mem p h
    · cases hr : splitOnChar c xs with
      | nil => exact absurd hr (splitOnChar_ne_nil c xs)
      | cons r0 rs =>
        simp only [splitOnChar, hr, if_neg hx, List.headI, List.tail] at hp
        rcases List.mem_cons.1 hp with h | h
        · subst h
          intro hm
          rcases List.mem_cons.1 hm with he | hm'
          · exact hx he.symm
          · exact mem_splitOnChar_not_mem (l := xs) r0
              (hr ▸ List.mem_cons_self r0 rs) hm'
        · exact mem_splitOnChar_not_mem (l := xs) p
            (hr ▸ List.mem_cons_of_mem r0 h)

theorem dropWhile_cons_head {α : Type} (p : α → Bool) :
    ∀ (l : List α) {y : α} {ys : List α}, l.dropWhile p = y :: ys → p y = false
  | [], y, ys, h => by simp [List.dropWhile] at h
  | x :: xs, y, ys, h => by
    rw [List.dropWhile_cons] at h
    split at h
    · exact dropWhile_cons_head p xs h
    · cases h
      simpa using ‹¬ _ = true›

theorem lstripWs_append (a b : Str) :
    lstripWs (a ++ b) = if lstripWs a = [] then lstripWs b else lstripWs a ++ b := by
  induction a with
  | nil => simp [lstripWs]
  | cons x a' ih =>
    by_cases hx : x.isWhitespace
    · simpa [lstripWs, List.dropWhile_cons, hx] using ih
    · simp [lstripWs, List.dropWhile_cons, hx]

theorem lstripWs_idem (l : Str) : lstripWs (lstripWs l) = lstripWs l := by
  cases h : lstripWs l with
  | nil => simp [lstripWs]
  | cons y ys =>
    have hy : y.isWhitespace = false := dropWhile_cons_head Char.isWhitespace l h
    simp [lstripWs, List.dropWhile_cons, hy]

theorem rstripWs_concat {l : Str} {c : Char} (h : c.isWhitespace = false) :
    rstripWs (l ++ [c]) = l ++ [c] := by
  simp [rstripWs, List.dropWhile_cons, h]

theorem stripWs_concat_rbrace (b : Str) :
    stripWs (b ++ ['\x7d'])
      = if lstripWs b = [] then ['\x7d'] else lstripWs b ++ ['\x7d'] := by
  unfold stripWs
  rw [lstripWs_append]
  split
  · decide
  · exact rstripWs_concat (by decide)

theorem add_closing_tag_eq {b : Str} (hb : lstripWs b ≠ []) :
    add_closing_tag b = lstripWs b ++ ['\x7d'] := by
  unfold add_closing_tag
  rw [stripWs_concat_rbrace, if_neg hb]

theorem stripWs_lstrip_rbrace (b : Str) :
    stripWs (lstripWs b ++ ['\x7d']) = lstripWs b ++ ['\x7d'] := by
  unfold stripWs
  rw [lstripWs_append, lstripWs_idem]
  by_cases h : lstripWs b = []
  · rw [if_pos h, h]
    decide
  · rw [if_neg h]
    exact rstripWs_concat (by decide)

theorem divide_one_ws {rest : Str} (hr1 : '\x7d' ∉ rest)
    (hr2 : lstripWs rest = []) : divide_one_style_text rest = [] := by
  unfold divide_one_style_text
  rw [splitOnChar_no_sep hr1, List.map_cons, List.map_nil]
  have h : add_closing_tag rest = ['\x7d'] := by
    unfold add_closing_tag
    rw [stripWs_concat_rbrace, if_pos hr2]
  rw [h]
  decide

theorem divide_one_cons {b : Str} (rest : Str) (hb1 : '\x7d' ∉ b)
    (hb2 : lstripWs b ≠ []) :
    divide_one_style_text (b ++ '\x7d' :: rest)
      = (lstripWs b ++ ['\x7d']) :: divide_one_style_text rest := by
  unfold divide_one_style_text
  rw [splitOnChar_append_sep rest hb1, List.map_cons, List.filter_cons]
  rw [add_closing_tag_eq hb2, stripWs_lstrip_rbrace]
  have hne : lstripWs b ++ ['\x7d'] ≠ ['\x7d'] := by
    intro h
    have hlen := congrArg List.length h
    simp at hlen
    exact hb2 hlen
  simp [hne]

theorem divide_one_rules (bodies : List Str) (rest : Str)
    (hb : ∀ b ∈ bodies, '\x7d' ∉ b ∧ lstripWs b ≠ [])
    (hr1 : '\x7d' ∉ rest) (hr2 : lstripWs rest = []) :
    divide_one_style_text ((bodies.map (fun b => b ++ ['\x7d'])).flatten ++ rest)
      = bodies.map (fun b => lstripWs b ++ ['\x7d']) := by
  induction bodies with
  | nil =>
    simpa using divide_one_ws hr1 hr2
  | cons b bs ih =>
    have hbb := hb b (List.mem_cons_self b bs)
    have hrec := ih (fun x hx => hb x (List.mem_cons_of_mem b hx))
    have hsh : ((b :: bs).map (fun b => b ++ ['\x7d'])).flatten ++ rest
        = b ++ '\x7d' :: ((bs.map (fun b => b ++ ['\x7d'])).flatten ++ rest) := by
      simp
    rw [hsh, divide_one_cons _ hbb.1 hbb.2, hrec, List.map_cons]

theorem mem_joinWith {sep : Str} {a : Char} :
    ∀ {l : List Str}, a ∈ joinWith sep l → a ∈ sep ∨ ∃ x ∈ l, a ∈ x
  | [], h => by simp [joinWith] at h
  | [x], h => by
    exact Or.inr ⟨x, List.mem_singleton_self x, h⟩
  | x :: y :: xs, h => by
    simp only [joinWith, List.mem_append] at h
    rcases h with (h | h) | h
    · exact Or.inr ⟨x, List.mem_cons_self x (y :: xs), h⟩
    · exact Or.inl h
    · rcases mem_joinWith (l := y :: xs) h with h' | ⟨z, hz, ha⟩
      · exact Or.inl h'
      · exact Or.inr ⟨z, List.mem_cons_of_mem x hz, ha⟩

theorem mem_splitlines_not_nl {l item : Str} (h : item ∈ splitlines l) :
    '\n' ∉ item := by
  unfold splitlines at h
  split at h
  · simp at h
  · split at h
    · exact mem_splitOnChar_not_mem item (List.mem_of_mem_dropLast h)
    · exact mem_splitOnChar_not_mem item h


theorem parsedPairs_nil (parse : Str → Option (List CssRule)) :
    parsedPairs parse [] = [] := rfl

theorem parsedPairs_cons (parse : Str → Option (List CssRule)) (d : Str)
    (rest : List Str) :
    parsedPairs parse (d :: rest)
      = ((parse d).getD []).filterMap extractRule ++ parsedPairs parse rest := by
  simp [parsedPairs]

theorem foldl_ruleStep_eq (rules : List CssRule) :
    ∀ m, rules.foldl ruleStep m = (rules.filterMap extractRule).foldl pairStep m := by
  induction rules with
  | nil => intro m; rfl
  | cons r rs ih =>
    intro m
    cases hs : r.selectorText with
    | none => simp [List.foldl_cons, List.filterMap_cons, ruleStep, extractRule, hs, ih]
    | some sel =>
      cases ht : r.cssText with
      | none => simp [List.foldl_cons, List.filterMap_cons, ruleStep, extractRule, hs, ht, ih]
      | some txt =>
        simp [List.foldl_cons, List.filterMap_cons, ruleStep, extractRule, hs, ht, ih, pairStep]

theorem process_loop_failed (parse : Str → Option (List CssRule)) :
    ∀ (decls : List Str) (m : List (Str × List Str)) (f : List Str),
      (process_loop parse m f decls).failed_declaration
        = f ++ decls.filter (fun d => (parse d).isNone)
  | [], m, f => by simp [process_loop]
  | d :: rest, m, f => by
    unfold process_loop
    cases hp : parse d with
    | none =>
      rw [process_loop_failed parse rest]
      simp [List.filter_cons, hp]
    | some rules =>
      rw [process_loop_failed parse rest]
      simp [List.filter_cons, hp]

theorem process_loop_successful (parse : Str → Option (List CssRule)) :
    ∀ (decls : List Str) (m : List (Str × List Str)) (f : List Str),
      (process_loop parse m f decls).successful_declaration
        = (parsedPairs parse decls).foldl pairStep m
  | [], m, f => by simp [process_loop, parsedPairs]
  | d :: rest, m, f => by
    unfold process_loop
    cases hp : parse d with
    | none =>
      rw [process_loop_successful parse rest, parsedPairs_cons, hp]
      simp
    | some rules =>
      rw [process_loop_successful parse rest, parsedPairs_cons, hp,
        List.foldl_append, foldl_ruleStep_eq]
      simp

theorem parsedPairs_filter_isSome (parse : Str → Option (List CssRule)) :
    ∀ decls : List Str,
      parsedPairs parse (decls.filter (fun d => (parse d).isSome))
        = parsedPairs parse decls
  | [] => rfl
  | d :: rest => by
    cases hp : parse d with
    | none =>
      rw [List.filter_cons, parsedPairs_cons, hp]
      simp [hp, parsedPairs_filter_isSome parse rest]
    | some rules =>
      rw [List.filter_cons]
      simp only [hp, Option.isSome_some, if_pos]
      rw [parsedPairs_cons, parsedPairs_cons, hp,
        parsedPairs_filter_isSome parse rest]


theorem dictAppend_keys (m : List (Str × List Str)) (k : Str) (v : Str) :
    (dictAppend m k v).map Prod.fst = insertKey (m.map Prod.fst) k := by
  induction m with
  | nil => simp [dictAppend, insertKey]
  | cons kv rest ih =>
    by_cases h : kv.1 = k
    · have hmem : k ∈ (kv :: rest).map Prod.fst := by
        rw [List.map_cons]
        exact h ▸ List.mem_cons_self kv.1 (rest.map Prod.fst)
      rw [insertKey, if_pos hmem]
      unfold dictAppend
      rw [if_pos h, List.map_cons, List.map_cons]
    · unfold dictAppend
      rw [if_neg h, List.map_cons, ih]
      unfold insertKey
      by_cases hm : k ∈ rest.map Prod.fst
      · rw [if_pos hm, if_pos (by rw [List.map_cons]; exact List.mem_cons_of_mem _ hm),
          List.map_cons]
      · have hnm : k ∉ (kv :: rest).map Prod.fst := by
          rw [List.map_cons, List.mem_cons]
          rintro (he | hmm)
          · exact h he.symm
          · exact hm hmm
        rw [if_neg hm, if_neg hnm, List.map_cons, List.cons_append]

theorem lookupList_dictAppend (m : List (Str × List Str)) (k v k' : Str) :
    lookupList (dictAppend m k v) k'
      = if k' = k then lookupList m k ++ [v] else lookupList m k' := by
  induction m with
  | nil =>
    by_cases h : k' = k
    · simp [dictAppend, lookupList, h]
    · have h2 : ¬ k = k' := fun e => h e.symm
      simp [dictAppend, lookupList, h, h2]
  | cons kv rest ih =>
    by_cases h : kv.1 = k
    · by_cases h' : k' = k
      · have e : kv.1 = k' := h.trans h'.symm
        simp [dictAppend, lookupList, h, h', e]
      · have e : ¬ kv.1 = k' := fun x => h' (x.symm.trans h)
        have h3 : ¬ k = k' := fun x => h' x.symm
        simp [dictAppend, lookupList, h, h', e, h3]
    · by_cases h' : kv.1 = k'
      · have h'' : ¬ k' = k := fun x => h (h'.trans x)
        simp [dictAppend, lookupList, h, h', h'']
      · by_cases h'' : k' = k
        · subst h''
          simp [dictAppend, lookupList, h, h', ih]
        · simp [dictAppend, lookupList, h, h', h'', ih]

theorem foldl_pairStep_keys (ps : List (Str × Str)) :
    ∀ m : List (Str × List Str),
      ((ps.foldl pairStep m).map Prod.fst)
        = (ps.map Prod.fst).foldl insertKey (m.map Prod.fst) := by
  induction ps with
  | nil => intro m; rfl
  | cons p ps ih =>
    intro m
    rw [List.foldl_cons, List.map_cons, List.foldl_cons, ih, pairStep,
      dictAppend_keys]

theorem foldl_pairStep_lookup (ps : List (Str × Str)) :
    ∀ (m : List (Str × List Str)) (k : Str),
      lookupList (ps.foldl pairStep m) k
        = lookupList m k ++ (ps.filter (fun p => p.1 = k)).map Prod.snd := by
  induction ps with
  | nil => intro m k; simp
  | cons p ps ih =>
    intro m k
    rw [List.foldl_cons, ih, pairStep, lookupList_dictAppend, List.filter_cons]
    by_cases h : k = p.1
    · simp [h, List.append_assoc]
    · have h2 : ¬ p.1 = k := fun e => h e.symm
      simp [h, h2]

theorem extract_style_strings_error : ∀ {texts : List (Option Str)},
    none ∈ texts → extract_style_strings texts = .error ()
  | none :: _, _ => rfl
  | some s :: rest, h => by
    have hm : none ∈ rest := by
      rcases List.mem_cons.1 h with he | hm
      · exact absurd he (by simp)
      · exact hm
    simp [extract_style_strings, extract_style_strings_error hm, Except.map]

theorem extract_style_strings_ok : ∀ {texts : List (Option Str)},
    none ∉ texts → extract_style_strings texts = .ok (texts.filterMap id)
  | [], _ => rfl
  | none :: rest, h => absurd (List.mem_cons_self _ _) h
  | some s :: rest, h => by
    have ih := extract_style_strings_ok (fun hm => h (List.mem_cons_of_mem _ hm))
    simp [extract_style_strings, ih, List.filterMap_cons, Except.map]

/-- Claim C1. The spec states that every pseudo-selector rule identified
by the selector resolver is written back as style text into the residual
style block appended to the head; in particular for the selector key
`a, b:hover` the `b:hover` rule text should appear there. The code
accumulates `pseudo_style_declarations` but never writes the dictionary
back: on the document whose single style block holds the rule with
selector key `a, b:hover`, the run inlines the `a` element and the
residual style block of the output is empty — no `b:hover` rule text
appears anywhere in the output document. -/
theorem claim_C1_pseudo_rules_dropped :
    main_model parse_pseudo_example selects_by_name soup_pseudo_example false
      = .ok { logLevel := 50,
              elements := [{ name := chars "a", style := .single (chars "color:red") }],
              residual := some [] } := by
  rfl

/-- Claim C2, counterexample. The claim says the formatting function
strips each line; the source strips only the whole text, so on the input
`"color:red;\n top:0"` (second line carrying a leading space) the code's
output keeps that interior space and differs from the line-stripping
algorithm the claim describes. -/
theorem claim_C2_counterexample :
    format_css_content_for_inline (chars "color:red;\n top:0")
      ≠ format_css_line_stripping_variant (chars "color:red;\n top:0") := by
  decide

/-- Claim C2, amended. The formatting function strips the whole raw text
(not each line), splits it into lines, removes every literal semicolon
from each line and appends exactly one semicolon, and joins the
reformatted lines with a single space; every formatted declaration ends
in exactly one semicolon and contains no other semicolon, and the result
contains no newline. -/
theorem claim_C2_amended (css_text : Str) :
    format_css_content_for_inline css_text
        = joinWith [' ']
            ((splitlines (stripWs css_text)).map
              (fun item => item.filter (fun c => c ≠ ';') ++ [';']))
    ∧ (∀ piece ∈ (splitlines (stripWs css_text)).map
          (fun item => item.filter (fun c => c ≠ ';') ++ [';']),
        piece.count ';' = 1 ∧ piece.getLast? = some ';')
    ∧ '\n' ∉ format_css_content_for_inline css_text := by
  refine ⟨rfl, ?_, ?_⟩
  · intro piece hp
    rcases List.mem_map.1 hp with ⟨item, hitem, rfl⟩
    constructor
    · rw [List.count_append]
      have h0 : (item.filter (fun c => c ≠ ';')).count ';' = 0 := by
        rw [List.count_eq_zero]
        intro hmem
        rcases List.mem_filter.1 hmem with ⟨-, hne⟩
        simp at hne
      rw [h0]
      simp
    · exact List.getLast?_concat _
  · intro hmem
    rcases mem_joinWith hmem with h | ⟨x, hx, ha⟩
    · simp at h
    · rcases List.mem_map.1 hx with ⟨item, hitem, rfl⟩
      rcases List.mem_append.1 ha with h1 | h2
      · exact mem_splitlines_not_nl hitem (List.mem_of_mem_filter h1)
      · simp at h2

/-- Claim C2, witness for the amended theorem at the input
`"color:red"`, whose single formatted declaration is `"color:red;"`. -/
theorem claim_C2_amended_witness :
    (chars "color:red;").count ';' = 1
      ∧ (chars "color:red;").getLast? = some ';' :=
  (claim_C2_amended (chars "color:red")).2.1 (chars "color:red;") (by decide)

/-- Claim C3. A fragment whose parse raises the syntax-error signal is
appended verbatim to the Failed Fragment List (the failed list is exactly
the in-order sublist of fragments whose parse fails), and the Declaration
Record is exactly the record obtained from the successfully parsing
fragments alone — so a failed fragment contributes nothing to the record
and never prevents later fragments from being parsed and recorded. -/
theorem claim_C3_syntax_errors_nonfatal (parse : Str → Option (List CssRule))
    (declarations : List Str) :
    (process_css_declarations parse declarations).failed_declaration
        = declarations.filter (fun d => (parse d).isNone)
    ∧ (process_css_declarations parse declarations).successful_declaration
        = (process_css_declarations parse
            (declarations.filter (fun d => (parse d).isSome))).successful_declaration := by
  constructor
  · rw [process_css_declarations, process_loop_failed]
    simp
  · rw [process_css_declarations, process_css_declarations,
      process_loop_successful, process_loop_successful, parsedPairs_filter_isSome]

/-- Claim C4, counterexample. A whitespace-only style-block text contains
no closing brace, yet the splitter yields zero fragments for it (the
appended-brace fragment strips to exactly a brace and is discarded), not
the one fragment the claim promises for every block text without a
closing brace. -/
theorem claim_C4_counterexample :
    '\x7d' ∉ chars "  " ∧ divide_one_style_text (chars "  ") = [] := by
  decide

/-- Claim C4, amended. The splitter splits each block on the closing
brace, re-appends a brace, discards pieces whose stripped text is exactly
a brace, and concatenates per-block results preserving input order; a
block that is the concatenation of `n` brace-terminated rules whose
bodies are brace-free and not whitespace-only yields exactly `n`
non-empty fragments, each ending in a closing brace; and a block with no
closing brace yields one brace-appended fragment provided its stripped
text is non-empty (a whitespace-only block yields none). -/
theorem claim_C4_amended (texts : List Str) (bodies : List Str) (t : Str) :
    divide_declarations_from_style_tags texts
        = (texts.map divide_one_style_text).flatten
    ∧ ((∀ b ∈ bodies, '\x7d' ∉ b ∧ lstripWs b ≠ []) →
        divide_one_style_text ((bodies.map (fun b => b ++ ['\x7d'])).flatten)
            = bodies.map (fun b => lstripWs b ++ ['\x7d'])
          ∧ (divide_one_style_text
                ((bodies.map (fun b => b ++ ['\x7d'])).flatten)).length
              = bodies.length
          ∧ ∀ f ∈ divide_one_style_text
                ((bodies.map (fun b => b ++ ['\x7d'])).flatten),
              f ≠ [] ∧ f.getLast? = some '\x7d')
    ∧ ('\x7d' ∉ t → lstripWs t ≠ [] →
        divide_one_style_text t = [add_closing_tag t]) := by
  refine ⟨rfl, ?_, ?_⟩
  · intro hb
    have h := divide_one_rules bodies [] hb (by simp) (by simp [lstripWs])
    rw [List.append_nil] at h
    refine ⟨h, by rw [h, List.length_map], ?_⟩
    intro f hf
    rw [h] at hf
    rcases List.mem_map.1 hf with ⟨b, hbmem, rfl⟩
    exact ⟨by simp, List.getLast?_concat _⟩
  · intro ht1 ht2
    unfold divide_one_style_text
    rw [splitOnChar_no_sep ht1, List.map_cons, List.map_nil, List.filter_cons]
    rw [add_closing_tag_eq ht2, stripWs_lstrip_rbrace]
    have hne : lstripWs t ++ ['\x7d'] ≠ ['\x7d'] := by
      intro h
      have hlen := congrArg List.length h
      simp at hlen
      exact ht2 hlen
    simp [hne]

/-- Claim C4, witness for the amended theorem: a brace-free block with
non-whitespace content yields exactly its one brace-appended fragment. -/
theorem claim_C4_amended_witness :
    divide_one_style_text (chars "no-brace") = [add_closing_tag (chars "no-brace")] :=
  (claim_C4_amended [] [] (chars "no-brace")).2.2 (by decide) (by decide)

/-- Claim C5, counterexample. An element whose style attribute is present
but equal to the empty string takes the truthiness branch of the merge:
the result is the candidate with trailing semicolons stripped, not the
join of existing and candidate with a separator that the claim prescribes
for every string-valued attribute. -/
theorem claim_C5_counterexample :
    new_style_attr (.single []) (chars "color:red;")
      ≠ rstripSemi (joinWith [';', ' '] [[], chars "color:red;"]) := by
  decide

/-- Claim C5, amended. Absent attribute: the candidate with trailing
semicolons stripped; a non-empty single string: existing and candidate
joined with a semicolon-space separator, then trailing semicolons
stripped; a non-empty token list: all tokens plus the candidate joined
the same way, then trailing semicolons stripped (an empty string or empty
list instead routes to the absent branch); applying `color:red;` over
existing `font-weight:bold` yields `font-weight:bold; color:red`. -/
theorem claim_C5_amended (inline_style s : Str) (ts : List Str) :
    new_style_attr .absent inline_style = rstripSemi inline_style
    ∧ (s ≠ [] →
        new_style_attr (.single s) inline_style
          = rstripSemi (s ++ [';', ' '] ++ inline_style))
    ∧ (ts ≠ [] →
        new_style_attr (.tokens ts) inline_style
          = rstripSemi (joinWith [';', ' '] (ts ++ [inline_style])))
    ∧ new_style_attr (.single (chars "font-weight:bold")) (chars "color:red;")
        = chars "font-weight:bold; color:red" := by
  refine ⟨rfl, ?_, ?_, by decide⟩
  · intro hs
    have hf : styleAttrFalsy (.single s) = false := by
      simp [styleAttrFalsy, hs]
    simp [new_style_attr, hf, joinWith, List.append_assoc]
  · intro hts
    have hf : styleAttrFalsy (.tokens ts) = false := by
      simp [styleAttrFalsy, hts]
    simp [new_style_attr, hf]

/-- Claim C5, witness for the amended theorem at a concrete non-empty
existing string. -/
theorem claim_C5_amended_witness :
    new_style_attr (.single (chars "a")) (chars "b;")
      = rstripSemi (chars "a" ++ [';', ' '] ++ chars "b;") :=
  (claim_C5_amended (chars "b;") (chars "a") []).2.1 (by decide)

/-- Claim C6. The Declaration Record lists its selector keys in
first-insertion order (the first-occurrence order of the successfully
parsed selector sequence), each key's list accumulates the formatted
declarations of every fragment with that exact selector text in encounter
order, and parsing `a\x7bcolor:red\x7d` then `a\x7bfont-size:12px\x7d`
yields the single entry for key `a` with declarations `color:red;` then
`font-size:12px;`. -/
theorem claim_C6_record_order (parse : Str → Option (List CssRule))
    (declarations : List Str) :
    ((process_css_declarations parse declarations).successful_declaration.map
          Prod.fst
        = firstKeys ((parsedPairs parse declarations).map Prod.fst))
    ∧ (∀ k : Str,
        lookupList
            (process_css_declarations parse declarations).successful_declaration k
          = ((parsedPairs parse declarations).filter
              (fun p => p.1 = k)).map Prod.snd)
    ∧ (process_css_declarations parse_grouping_example
          [chars "a\x7bcolor:red\x7d",
           chars "a\x7bfont-size:12px\x7d"]).successful_declaration
        = [(chars "a", [chars "color:red;", chars "font-size:12px;"])] := by
  refine ⟨?_, ?_, by decide⟩
  · rw [process_css_declarations, process_loop_successful, foldl_pairStep_keys]
    rfl
  · intro k
    rw [process_css_declarations, process_loop_successful, foldl_pairStep_lookup]
    simp [lookupList]

/-- Claim C7. For each (selector-text key, declaration list) pair, the
resolver stores the comma-split, piece-stripped selector tuple with the
space-joined inline style string; the partition of a selector group into
pseudo (containing a colon) and plain selectors is the order-preserving
filter pair; and when the plain subset of a group is empty the resolver
step leaves every element unchanged (no inline application happens). -/
theorem claim_C7_resolver (key : Str) (decls : List Str)
    (selects : Str → Element → Bool) (elements : List Element)
    (pdict : List (List Str × Str)) (entry : List Str × Str) :
    inline_css_declarations [(key, decls)]
        = [((splitOnChar ',' key).map stripWs, joinWith [' '] decls)]
    ∧ ((splitOnChar ',' key).map stripWs).partition (fun s => s.contains ':')
        = (((splitOnChar ',' key).map stripWs).filter (fun s => s.contains ':'),
           ((splitOnChar ',' key).map stripWs).filter (fun s => !(s.contains ':')))
    ∧ (entry.1.filter (fun s => !(s.contains ':')) = [] →
        (resolver_step selects (pdict, elements) entry).2 = elements) := by
  refine ⟨?_, ?_, ?_⟩
  · simp [inline_css_declarations, dictAssign]
  · exact List.partition_eq_filter_filter _ _
  · intro h
    simp only [resolver_step]
    rw [if_pos h]

/-- Claim C7, witness: a group whose only selector is the pseudo selector
`b:hover` leaves the element list untouched. -/
theorem claim_C7_resolver_witness :
    (resolver_step selects_by_name ([], [{ name := chars "a", style := .absent }])
        ([chars "b:hover"], chars "color:red;")).2
      = [{ name := chars "a", style := StyleAttr.absent }] :=
  (claim_C7_resolver (chars "x") [] selects_by_name
      [{ name := chars "a", style := .absent }] []
      ([chars "b:hover"], chars "color:red;")).2.2 (by decide)

/-- Claim C8. The silent and non-silent branches set the CSS-parsing
collaborator's logger to the same numeric level (Python's
`logging.FATAL` is an alias of `logging.CRITICAL`), so two runs differing
only in the silent flag produce identical observable outcomes. -/
theorem claim_C8_silent_equiv (parse : Str → Option (List CssRule))
    (selects : Str → Element → Bool) (soup : Soup) (s₁ s₂ : Bool) :
    logging_CRITICAL = logging_FATAL
    ∧ main_model parse selects soup s₁ = main_model parse selects soup s₂ := by
  refine ⟨rfl, ?_⟩
  cases s₁ <;> cases s₂ <;> rfl

/-- Claim C9. The splitter is partial at the public boundary: whenever
some style tag carries no text string (the `.string` of an empty
`<style></style>` is absent), the run aborts with the attribute-error
signal; when every style tag carries a text string, the run completes
normally. -/
theorem claim_C9_splitter_aborts (parse : Str → Option (List CssRule))
    (selects : Str → Element → Bool) (soup : Soup) (silent : Bool) :
    (none ∈ soup.styleTexts →
        main_model parse selects soup silent = .error ())
    ∧ (none ∉ soup.styleTexts →
        ∃ out, main_model parse selects soup silent = .ok out) := by
  constructor
  · intro h
    simp [main_model, extract_style_strings_error h]
  · intro h
    simp [main_model, extract_style_strings_ok h]

/-- Claim C9, witness: a document whose single style tag has no text
string aborts the run. -/
theorem claim_C9_splitter_aborts_witness :
    main_model (fun _ => none) (fun _ _ => false)
        { styleTexts := [none], hasHead := true, elements := [] } true
      = .error () :=
  (claim_C9_splitter_aborts (fun _ => none) (fun _ _ => false)
      { styleTexts := [none], hasHead := true, elements := [] } true).1 (by decide)

/-- Claim C10. An existing style attribute that is the empty string or
the empty token list fails the truthiness test and takes the
absent-attribute branch: the new value is the candidate with all trailing
semicolons stripped, with no separator or empty existing value
prepended. -/
theorem claim_C10_empty_style_falsy (inline_style : Str) :
    new_style_attr .absent inline_style = rstripSemi inline_style
    ∧ new_style_attr (.single []) inline_style = rstripSemi inline_style
    ∧ new_style_attr (.tokens []) inline_style = rstripSemi inline_style :=
  ⟨rfl, rfl, rfl⟩
